import Mathlib

/-!
# A verification model of the PolyHorn positivity-witness compiler

This file gives a shallow embedding, in Lean 4, of the algebraic core of the
PolyHorn reasoner (symbolic coefficient expressions, multivariate polynomials,
constraints, DNF, the Putinar strict-unsat generator, the automatic theorem
selector, the equality-elimination heuristic and the solver-output parser),
together with theorems that settle a list of specification claims against
this embedding.

Modelling conventions:
* Python `Fraction` is `ℚ`.  Rational arithmetic is embedded through the
  explicit kernel-computable operations `qAdd`, `qMul`, `qNeg`, `qDiv` and the
  comparison `qLtB`; the lemmas `qAdd_eq`, `qMul_eq`, `qNeg_eq`, `qDiv_eq`,
  `qLtB_iff` prove that each of them is exactly the corresponding operation
  of `ℚ`, so every definition below manipulates genuine rational numbers.
* Python `list.sort()` is modelled by `List.insertionSort`, a stable
  comparison sort.  All stated results are insensitive to the order of
  elements whose sort keys compare equal.
* Python's in-place mutation of `Element` objects (in the equality-elimination
  heuristic) is modelled with an explicit store of elements addressed by ids,
  so that aliasing and mutation are observable.
* Python strings manipulated character by character (the solver-output
  parser) are modelled as their lists of characters.
* Fallible code (`IndexError` reachable) returns `Except String`.
-/

namespace PolyHorn

/-! ## Kernel-computable rational arithmetic -/

/-- Rational addition, in a form the kernel can evaluate. -/
def qAdd (a b : ℚ) : ℚ := mkRat (a.num * b.den + b.num * a.den) (a.den * b.den)

/-- Rational multiplication, in a form the kernel can evaluate. -/
def qMul (a b : ℚ) : ℚ := mkRat (a.num * b.num) (a.den * b.den)

/-- Rational negation, in a form the kernel can evaluate. -/
def qNeg (a : ℚ) : ℚ := mkRat (-a.num) a.den

/-- Rational inverse, in a form the kernel can evaluate. -/
def qInv (a : ℚ) : ℚ := Rat.divInt a.den a.num

/-- Rational division, in a form the kernel can evaluate. -/
def qDiv (a b : ℚ) : ℚ := qMul a (qInv b)

/-- Rational strict comparison, in a form the kernel can evaluate. -/
def qLtB (a b : ℚ) : Bool := decide (a.num * b.den < b.num * a.den)

theorem qMul_eq (a b : ℚ) : qMul a b = a * b := (Rat.mul_eq_mkRat a b).symm

theorem qAdd_eq (a b : ℚ) : qAdd a b = a + b := by
  rw [qAdd, Rat.add_def, Rat.normalize_eq_mkRat]

theorem qNeg_eq (a : ℚ) : qNeg a = -a := by
  rw [qNeg, Rat.mkRat_eq_divInt, ← Rat.neg_divInt, Rat.num_divInt_den]

theorem qInv_eq (a : ℚ) : qInv a = a⁻¹ := by
  rw [qInv, ← Rat.inv_def']

theorem qDiv_eq (a b : ℚ) : qDiv a b = a / b := by
  rw [qDiv, qMul_eq, qInv_eq, div_eq_mul_inv]

theorem qLtB_iff (a b : ℚ) : qLtB a b = true ↔ a < b := by
  rw [qLtB, decide_eq_true_iff]
  exact Rat.lt_def.symm

/-! ## Variables -/

/-- Modelled from the spec (the file `UnknownVariable.py` is not part of the
provided sources): a variable is an immutable (name, kind) pair with a total
order, kind first, then lexicographic on name.  Freshly minted variables are
distinct objects even when they share name and kind, which we model with a
mint counter `id` used as the final tiebreak of the order. -/
structure UVar where
  kind : String
  name : String
  id : Nat
deriving DecidableEq, Repr

/-- Lexicographic comparison of character lists by code point (Python string
`<`), in a form the kernel can evaluate. -/
def charsLt : List Char → List Char → Bool
  | [], [] => false
  | [], _ :: _ => true
  | _ :: _, [] => false
  | x :: xs, y :: ys => if x = y then charsLt xs ys else decide (x.toNat < y.toNat)

/-- Lexicographic string comparison by code point. -/
def strLt (a b : String) : Bool := charsLt a.data b.data

/-- Strict total order on variables: (kind, name, mint id), lexicographic. -/
def UVar.ltB (a b : UVar) : Bool :=
  if a.kind = b.kind then
    (if a.name = b.name then decide (a.id < b.id) else strLt a.name b.name)
  else strLt a.kind b.kind

/-- `list.sort()` on variable lists (stable sort by the variable order). -/
def sortVars (l : List UVar) : List UVar :=
  l.insertionSort (fun a b => UVar.ltB b a = false)

/-! ## Elements and coefficient expressions (Coefficient.py) -/

/-- `Element`: a rational constant together with a multiset of variables,
kept as a sorted list, denoting their product. -/
structure Element where
  constant : ℚ
  vars : List UVar
deriving DecidableEq, Repr

/-- `Element.__init__`: wraps the constant and sorts the variable list. -/
def Element.init (c : ℚ) (vs : List UVar) : Element :=
  ⟨c, sortVars vs⟩

/-- The variable-list walk of `Element.__lt__`: first differing variable
decides; if the (equal-length) lists agree, the constants decide. -/
def elemVarsLt : List UVar → List UVar → ℚ → ℚ → Bool
  | x :: xs, y :: ys, ca, cb => if x = y then elemVarsLt xs ys ca cb else UVar.ltB x y
  | _, _, ca, cb => qLtB ca cb

/-- `Element.__lt__`: by length of the variable multiset, then by the
variables lexicographically, then by the constant. -/
def Element.ltB (a b : Element) : Bool :=
  if a.vars.length = b.vars.length then
    elemVarsLt a.vars b.vars a.constant b.constant
  else decide (a.vars.length < b.vars.length)

/-- `Element.__eq__`: elements are equal iff their variable multisets are
equal (constants are not compared). -/
def Element.eqB (a b : Element) : Bool :=
  decide (a.vars = b.vars)

/-- `Element.__mul__`: multiply constants, concatenate variable lists. -/
def Element.mulE (a b : Element) : Element :=
  Element.init (qMul a.constant b.constant) (a.vars ++ b.vars)

/-- `Element.__neg__`: negate the constant. -/
def Element.negE (a : Element) : Element :=
  Element.init (qNeg a.constant) a.vars

/-- `Coefficient`: a list of elements denoting their sum. -/
structure Coefficient where
  elements : List Element
deriving DecidableEq, Repr

/-- `list.sort()` on element lists (stable sort by `Element.__lt__`). -/
def sortElems (l : List Element) : List Element :=
  l.insertionSort (fun a b => Element.ltB b a = false)

/-- `Coefficient.__init__`: sorts the element list. -/
def Coefficient.init (es : List Element) : Coefficient :=
  ⟨sortElems es⟩

theorem length_dropWhile_le {α : Type _} (p : α → Bool) (l : List α) :
    (l.dropWhile p).length ≤ l.length := by
  induction l with
  | nil => simp [List.dropWhile]
  | cons x xs ih =>
    by_cases h : p x
    · simp [List.dropWhile, h]; omega
    · simp [List.dropWhile, h]

/-- One step of the grouping loop of `Coefficient.revise`: `cur` is the first
element of the current run (`elements[i]` in the source), `acc` the running
sum of the run's constants; as long as the next element has the same variable
multiset it is absorbed into the run, otherwise the run is closed and a new
one starts.  Zero sums are kept. -/
def reviseGo (cur : Element) (acc : ℚ) : List Element → List Element
  | [] => [Element.init acc cur.vars]
  | f :: rest =>
    if Element.eqB cur f then reviseGo cur (qAdd acc f.constant) rest
    else Element.init acc cur.vars :: reviseGo f (qAdd 0 f.constant) rest

/-- The grouping loop of `Coefficient.revise`: on a sorted element list, sum
the constants of each maximal run of elements with equal variable multisets,
emitting one element per run. -/
def reviseRuns : List Element → List Element
  | [] => []
  | e :: rest => reviseGo e (qAdd 0 e.constant) rest

/-- `Coefficient.revise`: sort, then combine the elements that share a
variable multiset by summing their constants. -/
def Coefficient.revise (c : Coefficient) : Coefficient :=
  Coefficient.init (reviseRuns (sortElems c.elements))

/-- `Coefficient.__add__` (Coefficient case): concatenate and revise. -/
def Coefficient.add (a b : Coefficient) : Coefficient :=
  (Coefficient.init (a.elements ++ b.elements)).revise

/-- `Coefficient.__neg__`: negate every element. -/
def Coefficient.negC (a : Coefficient) : Coefficient :=
  Coefficient.init (a.elements.map Element.negE)

/-- `Coefficient.__sub__`: add the negation. -/
def Coefficient.sub (a b : Coefficient) : Coefficient :=
  a.add b.negC

/-- `Coefficient.__mul__`: outer product of the element lists (row-major, as
the reshaped numpy matrix product), then revise. -/
def Coefficient.mulC (a b : Coefficient) : Coefficient :=
  (Coefficient.init (a.elements.flatMap (fun x => b.elements.map (fun y => x.mulE y)))).revise

/-- Denotation of an element under an assignment of rationals to variables. -/
def Element.eval (σ : UVar → ℚ) (e : Element) : ℚ :=
  e.constant * (e.vars.map σ).prod

/-- Denotation of a list of elements: the sum of their denotations. -/
def evalElems (σ : UVar → ℚ) (es : List Element) : ℚ :=
  (es.map (Element.eval σ)).sum

/-- Denotation of a coefficient expression. -/
def Coefficient.eval (σ : UVar → ℚ) (c : Coefficient) : ℚ :=
  evalElems σ c.elements

theorem evalElems_perm (σ : UVar → ℚ) {l₁ l₂ : List Element} (h : l₁.Perm l₂) :
    evalElems σ l₁ = evalElems σ l₂ :=
  (h.map (Element.eval σ)).sum_eq

theorem eval_sortElems (σ : UVar → ℚ) (l : List Element) :
    evalElems σ (sortElems l) = evalElems σ l :=
  evalElems_perm σ (List.perm_insertionSort _ l)

theorem eval_element_init (σ : UVar → ℚ) (c : ℚ) (vs : List UVar) :
    Element.eval σ (Element.init c vs) = c * (vs.map σ).prod := by
  unfold Element.eval Element.init sortVars
  exact congrArg (c * ·) ((List.perm_insertionSort _ vs).map σ).prod_eq

theorem evalElems_of_same_vars (σ : UVar → ℚ) (vs : List UVar) (l : List Element)
    (h : ∀ f ∈ l, f.vars = vs) :
    evalElems σ l = (l.map (·.constant)).sum * (vs.map σ).prod := by
  induction l with
  | nil => simp [evalElems]
  | cons e es ih =>
    have he : e.vars = vs := h e (List.mem_cons_self e es)
    have ih' := ih (fun f hf => h f (List.mem_cons_of_mem e hf))
    simp only [evalElems, List.map_cons, List.sum_cons] at *
    rw [ih', Element.eval, he, add_mul]

theorem eval_reviseGo (σ : UVar → ℚ) (l : List Element) : ∀ (cur : Element) (acc : ℚ),
    evalElems σ (reviseGo cur acc l) = acc * (cur.vars.map σ).prod + evalElems σ l := by
  induction l with
  | nil =>
    intro cur acc
    simp [reviseGo, evalElems, eval_element_init]
  | cons f rest ih =>
    intro cur acc
    have hcons : ∀ (x : Element) (xs : List Element),
        evalElems σ (x :: xs) = Element.eval σ x + evalElems σ xs := by
      intro x xs; simp [evalElems]
    by_cases h : Element.eqB cur f
    · have hv : f.vars = cur.vars := by
        have := of_decide_eq_true h
        exact this.symm
      rw [reviseGo, if_pos h, ih, qAdd_eq, hcons, Element.eval, hv]
      ring
    · rw [reviseGo, if_neg h, hcons, eval_element_init, ih, qAdd_eq, hcons, Element.eval]
      ring

theorem eval_reviseRuns (σ : UVar → ℚ) : ∀ l : List Element,
    evalElems σ (reviseRuns l) = evalElems σ l
  | [] => by simp [reviseRuns]
  | e :: rest => by
    rw [reviseRuns, eval_reviseGo, qAdd_eq]
    simp [evalElems, Element.eval]

theorem evalElems_append (σ : UVar → ℚ) (a b : List Element) :
    evalElems σ (a ++ b) = evalElems σ a + evalElems σ b := by
  simp [evalElems]

theorem eval_coefficient_init (σ : UVar → ℚ) (es : List Element) :
    (Coefficient.init es).eval σ = evalElems σ es :=
  eval_sortElems σ es

theorem eval_revise (σ : UVar → ℚ) (c : Coefficient) :
    c.revise.eval σ = c.eval σ := by
  unfold Coefficient.revise
  rw [eval_coefficient_init, eval_reviseRuns, eval_sortElems]
  rfl

theorem eval_add (σ : UVar → ℚ) (a b : Coefficient) :
    (a.add b).eval σ = a.eval σ + b.eval σ := by
  unfold Coefficient.add
  rw [eval_revise, eval_coefficient_init, evalElems_append]
  rfl

theorem eval_negE (σ : UVar → ℚ) (e : Element) :
    Element.eval σ (Element.negE e) = - Element.eval σ e := by
  unfold Element.negE
  rw [eval_element_init, qNeg_eq, Element.eval]
  ring

theorem eval_negC (σ : UVar → ℚ) (a : Coefficient) :
    a.negC.eval σ = - a.eval σ := by
  unfold Coefficient.negC
  rw [eval_coefficient_init]
  show evalElems σ (a.elements.map Element.negE) = - evalElems σ a.elements
  induction a.elements with
  | nil => simp [evalElems]
  | cons e es ih =>
    simp only [List.map_cons, evalElems, List.sum_cons] at *
    rw [eval_negE, ih]; ring

/-- A sample template variable used in concrete computations. -/
def tvA : UVar := ⟨"template_var", "a", 0⟩

/-- A sample template variable used in concrete computations. -/
def tvB : UVar := ⟨"template_var", "b", 1⟩

/-- C5, counterexample: for the coefficient expression `x = 1·a`, the
canonicalized sum `x + (−x)` is `0·a`, a one-element term list, not the
empty term list the claim asserts: `Coefficient.revise` sums the rationals
of terms with equal variable multisets but does not drop the resulting zero
terms. -/
theorem C5_add_neg_counterexample :
    ((Coefficient.init [Element.init 1 [tvA]]).add
      (Coefficient.init [Element.init 1 [tvA]]).negC).elements ≠ [] := by
  decide

/-- C5, amended: for every CoeffExpr `x`, the canonicalized sum `x + (−x)`
denotes zero under every assignment, but its term list is empty only when
`x` itself has no terms: canonicalization combines terms with the same
variable multiset by summing their rationals and keeps, rather than drops,
terms whose rational is zero. -/
theorem C5_add_neg_eval_zero (c : Coefficient) (σ : UVar → ℚ) :
    (c.add c.negC).eval σ = 0 := by
  rw [eval_add, eval_negC]
  ring

/-! ## DNF (DNF.py)

A DNF is a list of clauses (`literals` in the source); each clause is a list
of atomic constraints, conjunctively interpreted; the DNF denotes the
disjunction of its clauses. -/

/-- A DNF over atoms of type `α`: the list of clauses (`DNF.literals`). -/
abbrev Dnf (α : Type _) := List (List α)

/-- `DNF.__or__`: concatenation of the clause lists. -/
def orD {α} (a b : Dnf α) : Dnf α := a ++ b

/-- `DNF.__and__`: if either side has an empty clause list the other side is
returned unchanged; otherwise the Cartesian concatenation of clauses. -/
def andD {α} : Dnf α → Dnf α → Dnf α
  | [], b => b
  | a, [] => a
  | a, b => a.flatMap (fun x => b.map (fun y => x ++ y))

/-- `DNF.__neg__`: negate every atom of every clause and and-together the
resulting one-atom-per-clause DNFs, starting from the empty DNF. -/
def negD {α} (neg : α → α) (d : Dnf α) : Dnf α :=
  d.foldl (fun acc lit => andD acc (lit.map (fun item => [neg item]))) []

/-- Denotation of a DNF under a valuation of its atoms: some clause has all
its atoms true. -/
def denoteD {α} (v : α → Bool) (d : Dnf α) : Bool :=
  d.any (fun c => c.all v)

theorem denoteD_append {α} (v : α → Bool) (a b : Dnf α) :
    denoteD v (a ++ b) = (denoteD v a || denoteD v b) := by
  simp [denoteD]

theorem any_flatMap {β γ : Type _} (l : List β) (f : β → List γ) (p : γ → Bool) :
    (l.flatMap f).any p = l.any (fun x => (f x).any p) := by
  induction l with
  | nil => rfl
  | cons x xs ih => simp [List.any_append, ih]

theorem any_map_append_all {α} (v : α → Bool) (x : List α) (b : Dnf α) :
    ((b.map (fun y => x ++ y)).any fun c => c.all v) =
    (x.all v && b.any fun c => c.all v) := by
  induction b with
  | nil => simp
  | cons z zs ih =>
    rw [List.map_cons, List.any_cons, List.any_cons, ih, List.all_append,
      Bool.and_or_distrib_left]

theorem denoteD_product {α} (v : α → Bool) (a b : Dnf α) :
    denoteD v (a.flatMap (fun x => b.map (fun y => x ++ y))) =
    (denoteD v a && denoteD v b) := by
  unfold denoteD
  rw [any_flatMap]
  induction a with
  | nil => simp
  | cons x xs ih =>
    rw [List.any_cons, List.any_cons, ih, any_map_append_all,
      Bool.and_or_distrib_right]

theorem andD_nil_right {α} (a : Dnf α) : andD a [] = a := by
  cases a <;> rfl

theorem andD_nil_left {α} (a : Dnf α) : andD [] a = a := by
  cases a <;> rfl

theorem andD_cons {α} (x z : List α) (xs zs : Dnf α) :
    andD (x :: xs) (z :: zs) =
    (x :: xs).flatMap (fun c => (z :: zs).map (fun c2 => c ++ c2)) := rfl

/-- C1, counterexample: with `d = [[0]]`, `e` the DNF with the empty clause
list, `f = [[1]]` and the valuation making atom `0` true and atom `1` false,
`d ∧ (e ∨ f)` and `(d ∧ e) ∨ (d ∧ f)` differ in denotation: because
`DNF.__and__` returns the other operand whenever one operand has an empty
clause list, `d ∧ e` evaluates to `d`, not to the empty (false) DNF. -/
theorem C1_distrib_counterexample :
    denoteD (fun n : ℕ => n == 0) (andD [[0]] (orD [] [[1]])) ≠
    denoteD (fun n : ℕ => n == 0) (orD (andD [[0]] []) (andD [[0]] [[1]])) := by
  decide

/-- C1, amended: the DNF distribution law `d ∧ (e ∨ f) ≡ (d ∧ e) ∨ (d ∧ f)`
holds whenever `e` and `f` are both empty or both nonempty clause lists (in
particular for all DNFs with at least one clause); it can fail when exactly
one of `e`, `f` has the empty clause list, because the code treats the empty
clause list — not only the single empty clause — as an identity for `∧`. -/
theorem C1_distrib_amended {α} (d e f : Dnf α) (v : α → Bool)
    (h : e = [] ↔ f = []) :
    denoteD v (andD d (orD e f)) = denoteD v (orD (andD d e) (andD d f)) := by
  match e, f with
  | [], f =>
    have hf : f = [] := h.mp rfl
    subst hf
    show denoteD v (andD d ([] ++ [])) = denoteD v (orD (andD d []) (andD d []))
    rw [List.nil_append, andD_nil_right]
    show denoteD v d = denoteD v (d ++ d)
    rw [denoteD_append, Bool.or_self]
  | x :: xs, [] => exact absurd (h.mpr rfl) (by simp)
  | x :: xs, y :: ys =>
    match d with
    | [] => rw [andD_nil_left, andD_nil_left, andD_nil_left]
    | z :: zs =>
      show denoteD v (andD (z :: zs) ((x :: xs) ++ (y :: ys))) =
        denoteD v (andD (z :: zs) (x :: xs) ++ andD (z :: zs) (y :: ys))
      rw [List.cons_append, andD_cons, andD_cons, andD_cons, denoteD_product,
        denoteD_append, denoteD_product, denoteD_product, ← List.cons_append,
        denoteD_append, Bool.and_or_distrib_left]

/-- C1, witness for the amended distribution law at concrete inputs. -/
theorem C1_distrib_amended_witness :
    denoteD (fun n : ℕ => n == 0) (andD [[0]] (orD [[1]] [[2]])) =
    denoteD (fun n : ℕ => n == 0) (orD (andD [[0]] [[1]]) (andD [[0]] [[2]])) :=
  C1_distrib_amended [[0]] [[1]] [[2]] (fun n : ℕ => n == 0) (by simp)

/-! ## Horn pair registration (PositiveModel.add_paired_constraint) -/

/-- `PositiveModel.add_paired_constraint`: when the RHS has more than one
clause, the clauses after the first are negated and conjoined into the LHS
and only the first clause is kept; then one record `(LHS clause, RHS atom,
program variables)` is appended per pair of an LHS clause and an atom of the
first RHS clause.  Evaluating `rhs.literals[0]` raises `IndexError` when the
clause list is empty — but it is only evaluated once the loop over the LHS
clauses has entered its first iteration. -/
def addPairedLoop {α} (lhs1 rhs1 : Dnf α) (pv : List UVar) :
    Except String (List (List α × α × List UVar)) :=
  match lhs1, rhs1 with
  | [], _ => .ok []
  | _ :: _, [] => .error "IndexError"
  | x :: xs, r0 :: _ => .ok ((x :: xs).flatMap (fun lit => r0.map (fun item => (lit, item, pv))))

/-- `add_paired_constraint` itself: the RHS rewrite followed by the loop. -/
def addPairedConstraint {α} (neg : α → α) (lhs rhs : Dnf α) (pv : List UVar) :
    Except String (List (List α × α × List UVar)) :=
  if 1 < rhs.length then
    addPairedLoop (andD lhs (negD neg (rhs.drop 1))) [rhs.headD []] pv
  else addPairedLoop lhs rhs pv

theorem length_flatMap_map {α β γ : Type _} (l : List α) (r : List β) (g : α → β → γ) :
    (l.flatMap (fun x => r.map (g x))).length = l.length * r.length := by
  induction l with
  | nil => simp
  | cons x xs ih =>
    simp only [List.flatMap_cons, List.length_append, List.length_map, ih, List.length_cons]
    ring

/-- C10, counterexample: with an empty clause list on both sides,
`add_paired_constraint` raises nothing: the loop over the LHS clauses never
runs, so `rhs.literals[0]` is never evaluated and the call returns normally
(registering no record), contrary to the claim that an empty RHS always
raises `IndexError`. -/
theorem C10_empty_rhs_counterexample :
    addPairedConstraint (fun n : ℕ => n + 1) [] [] [] = .ok [] ∧
    ∀ msg : String, addPairedConstraint (fun n : ℕ => n + 1) [] [] [] ≠ .error msg := by
  refine ⟨rfl, ?_⟩
  intro msg h
  exact Except.noConfusion h

/-- C10, amended: with an RHS whose clause list is empty,
`add_paired_constraint` raises `IndexError` iff the LHS has at least one
clause (and registers no record either way); with an RHS having at least one
clause it never raises, and it registers exactly one record per pair of a
clause of the transformed LHS — the LHS conjoined with the negation of the
remaining RHS clauses, when there are any — and an atom of the first RHS
clause. -/
theorem C10_addPaired_amended {α} (neg : α → α) (lhs : Dnf α) (pv : List UVar) :
    (lhs ≠ [] → addPairedConstraint neg lhs [] pv = .error "IndexError") ∧
    (lhs = [] → addPairedConstraint neg lhs [] pv = .ok []) ∧
    (∀ r0 : List α, ∃ L,
      addPairedConstraint neg lhs [r0] pv = .ok L ∧
      L.length = lhs.length * r0.length) ∧
    (∀ (r0 y : List α) (ys : Dnf α), ∃ L,
      addPairedConstraint neg lhs (r0 :: y :: ys) pv = .ok L ∧
      L.length = (andD lhs (negD neg (y :: ys))).length * r0.length) := by
  refine ⟨?_, ?_, ?_, ?_⟩
  · intro hne
    match lhs with
    | [] => exact absurd rfl hne
    | x :: xs => rfl
  · intro he
    subst he
    rfl
  · intro r0
    match lhs with
    | [] => exact ⟨[], rfl, by simp⟩
    | x :: xs =>
      exact ⟨(x :: xs).flatMap (fun lit => r0.map (fun item => (lit, item, pv))), rfl,
        length_flatMap_map _ _ _⟩
  · intro r0 y ys
    have hcond : 1 < (r0 :: y :: ys).length := by
      simp only [List.length_cons]
      omega
    have hstep : addPairedConstraint neg lhs (r0 :: y :: ys) pv =
        addPairedLoop (andD lhs (negD neg (y :: ys))) [r0] pv := by
      unfold addPairedConstraint
      rw [if_pos hcond]
      rfl
    match hand : andD lhs (negD neg (y :: ys)) with
    | [] =>
      refine ⟨[], ?_, by simp⟩
      rw [hstep, hand]
      rfl
    | x :: xs =>
      refine ⟨(x :: xs).flatMap (fun lit => r0.map (fun item => (lit, item, pv))), ?_, ?_⟩
      · rw [hstep, hand]
        rfl
      · rw [length_flatMap_map]

/-- C10, witness: at a one-clause LHS and empty RHS the amended theorem
yields the `IndexError`. -/
theorem C10_addPaired_amended_witness :
    addPairedConstraint (fun n : ℕ => n + 1) [[0]] [] [] = .error "IndexError" :=
  (C10_addPaired_amended (fun n : ℕ => n + 1) [[0]] []).1 (by simp)

/-! ## The equality-elimination guard of create_smt_file -/

/-- The condition under which `PositiveModel.create_smt_file` applies the
equality-elimination heuristic: `constant_heuristic` and the Python
expression `(get_SAT ^ get_UNSAT ^ get_strict) and not (get_SAT and
get_UNSAT and get_UNSAT)` — the source repeats `get_UNSAT` in the third
conjunct where `get_strict` was presumably meant. -/
def constantHeuristicApplied (constantHeuristic getSAT getUNSAT getStrict : Bool) : Bool :=
  constantHeuristic &&
    (((getSAT ^^ getUNSAT) ^^ getStrict) && !(getSAT && getUNSAT && getUNSAT))

/-- Exactly one of three Booleans is true. -/
def exactlyOne (a b c : Bool) : Bool :=
  (a && !b && !c) || (!a && b && !c) || (!a && !b && c)

/-- C7: the heuristic guard of `create_smt_file` holds iff
`constant_heuristic` is set and exactly one of the three mode flags
`get_SAT`, `get_UNSAT`, `get_strict` is set: the xor of the three flags also
admits the all-three case, but that case is excluded by the third conjunct
even with its repeated `get_UNSAT`, because all-three implies
`get_SAT ∧ get_UNSAT`. -/
theorem C7_constant_heuristic_guard (ch s u st : Bool) :
    constantHeuristicApplied ch s u st = (ch && exactlyOne s u st) := by
  cases ch <;> cases s <;> cases u <;> cases st <;> rfl

/-! ## Monomials and polynomials (Polynomial.py) -/

/-- `Monomial`: a variable list, an exponent vector (`degrees`, one entry per
variable) and a `Coefficient`.  The source maintains the invariant that the
degree list has the same length as the variable list. -/
structure Monomial where
  vars : List UVar
  degrees : List ℕ
  coef : Coefficient
deriving DecidableEq, Repr

/-- `Monomial.__init__`: sorts the variable list (the degree list is stored
as given). -/
def Monomial.init (vs : List UVar) (ds : List ℕ) (c : Coefficient) : Monomial :=
  ⟨sortVars vs, ds, c⟩

/-- The degree walk of `Monomial.__lt__`: the first differing exponent
decides, and exhausting the walk yields `true` (the comparison is
non-strict).  The source walks `range(len(self.variables))` indexing both
degree lists, which under the equal-length invariant is this structural walk;
the length-mismatch cases are totalized as ordinary lexicographic order. -/
def degLex : List ℕ → List ℕ → Bool
  | [], [] => true
  | [], _ :: _ => true
  | _ :: _, [] => false
  | x :: xs, y :: ys => if x = y then degLex xs ys else decide (x < y)

/-- `Monomial.__lt__`: by length of the variable list, then lexicographically
on the exponent vector; `true` when all exponents agree.  Note the first
component is the number of variables, not the total degree. -/
def Monomial.ltB (a b : Monomial) : Bool :=
  if a.vars.length = b.vars.length then degLex a.degrees b.degrees
  else decide (a.vars.length < b.vars.length)

/-- `Monomial.__eq__`: equal variable lists and equal exponent vectors
(coefficients are not compared). -/
def Monomial.eqB (a b : Monomial) : Bool :=
  decide (a.vars = b.vars ∧ a.degrees = b.degrees)

/-- `Monomial.__mul__`: elementwise sum of the exponent vectors (numpy array
addition), product of the coefficients, variable list of the left factor. -/
def Monomial.mulM (a b : Monomial) : Monomial :=
  Monomial.init a.vars (List.zipWith (· + ·) a.degrees b.degrees) (a.coef.mulC b.coef)

/-- `Monomial.__neg__`: negate the coefficient. -/
def Monomial.negM (a : Monomial) : Monomial :=
  Monomial.init a.vars a.degrees a.coef.negC

/-- `Monomial.is_mono`: every exponent is 0 or 1 and their sum is at most 1. -/
def Monomial.isMono (m : Monomial) : Bool :=
  m.degrees.all (fun d => d = 0 || d = 1) && decide (m.degrees.sum ≤ 1)

/-- `Monomial.get_deg`: the total degree (numpy sum of the exponents). -/
def Monomial.getDeg (m : Monomial) : ℕ := m.degrees.sum

/-- `list.sort()` on monomial lists.  `Monomial.__lt__` is reflexive (it
returns `true` on equal exponent vectors), i.e. it is itself the non-strict
comparison, so the stable sort inserts directly with it. -/
def sortMonos (l : List Monomial) : List Monomial :=
  l.insertionSort (fun a b => Monomial.ltB a b = true)

/-- `Polynomial`: a variable list and a list of monomials denoting their
sum. -/
structure Polynomial where
  vars : List UVar
  monomials : List Monomial
deriving DecidableEq, Repr

/-- `Polynomial.__init__`: sorts the variable list and the monomial list
(duplicate exponent vectors are not merged here). -/
def Polynomial.init (vs : List UVar) (ms : List Monomial) : Polynomial :=
  ⟨sortVars vs, sortMonos ms⟩

/-- The key set of `dict_from_degrees_to_monomials`: the distinct exponent
vectors in first-occurrence order.  (Python dict keys preserve first
insertion order; the dict value for a key is the last monomial with that
exponent vector.) -/
def degreeKeys (ms : List Monomial) : List (List ℕ) :=
  ms.foldl (fun acc m => if m.degrees ∈ acc then acc else acc ++ [m.degrees]) []

/-- `Polynomial.get_monomial_by_degree`: the dict value — the last monomial
with the given exponent vector — or a fresh zero monomial. -/
def Polynomial.getMonomialByDegree (p : Polynomial) (d : List ℕ) : Monomial :=
  match (p.monomials.filter (fun m => m.degrees = d)).getLast? with
  | some m => m
  | none => Monomial.init p.vars (List.replicate p.vars.length 0) (Coefficient.init [])

/-- One step of the grouping loop of `Polynomial.revise`: as in
`Coefficient.revise`, with runs of monomials equal under `Monomial.__eq__`
and coefficients accumulated with `Coefficient.__add__` starting from the
empty coefficient. -/
def polyReviseGo (cur : Monomial) (acc : Coefficient) : List Monomial → List Monomial
  | [] => [Monomial.init cur.vars cur.degrees acc]
  | f :: rest =>
    if Monomial.eqB cur f then polyReviseGo cur (acc.add f.coef) rest
    else Monomial.init cur.vars cur.degrees acc :: polyReviseGo f ((Coefficient.init []).add f.coef) rest

/-- The grouping loop of `Polynomial.revise` on a sorted monomial list. -/
def polyReviseRuns : List Monomial → List Monomial
  | [] => []
  | e :: rest => polyReviseGo e ((Coefficient.init []).add e.coef) rest

/-- `Polynomial.revise`: sort, merge the runs of equal monomials, and rebuild
the polynomial (whose constructor sorts again). -/
def Polynomial.reviseP (p : Polynomial) : Polynomial :=
  Polynomial.init p.vars (polyReviseRuns (sortMonos p.monomials))

/-- `Polynomial.__add__`: union of the monomial lists, then revise. -/
def Polynomial.addP (p q : Polynomial) : Polynomial :=
  (Polynomial.init p.vars (p.monomials ++ q.monomials)).reviseP

/-- `Polynomial.__neg__`: negate every monomial. -/
def Polynomial.negP (p : Polynomial) : Polynomial :=
  Polynomial.init p.vars (p.monomials.map Monomial.negM)

/-- `Polynomial.__sub__`: add the negation. -/
def Polynomial.subP (p q : Polynomial) : Polynomial :=
  p.addP q.negP

/-- `Polynomial.__mul__`: outer product of the monomial lists (row-major),
then revise. -/
def Polynomial.mulP (p q : Polynomial) : Polynomial :=
  (Polynomial.init p.vars
    (p.monomials.flatMap (fun a => q.monomials.map (fun b => a.mulM b)))).reviseP

/-- `Polynomial.add_variables`: append the new variables with zero exponents
to every monomial and to the variable list (both constructors re-sort the
variable lists without permuting the degree lists accordingly). -/
def Polynomial.addVariables (p : Polynomial) (nvs : List UVar) : Polynomial :=
  Polynomial.init (p.vars ++ nvs)
    (p.monomials.map (fun m =>
      Monomial.init (m.vars ++ nvs) (m.degrees ++ List.replicate nvs.length 0) m.coef))

/-- `Polynomial.is_linear`: every monomial passes `is_mono`. -/
def Polynomial.isLinear (p : Polynomial) : Bool :=
  p.monomials.all Monomial.isMono

/-- `Polynomial.get_deg`: running maximum of the monomial degrees, from 0. -/
def Polynomial.getDeg (p : Polynomial) : ℕ :=
  p.monomials.foldl (fun d m => max d m.getDeg) 0

/-! ## Constraints (Constraint.py) -/

/-- `PolynomialConstraint`: a polynomial compared to zero. -/
structure PolyConstraint where
  polynomial : Polynomial
  sign : String
deriving DecidableEq, Repr

/-- `PolynomialConstraint.__init__`: normalizes `<` to `>` and `<=` to `>=`
by negating the polynomial. -/
def PolyConstraint.init (p : Polynomial) (s : String) : PolyConstraint :=
  if s = "<" then ⟨p.negP, ">"⟩
  else if s = "<=" then ⟨p.negP, ">="⟩
  else ⟨p, s⟩

/-- `PolynomialConstraint.is_strict`. -/
def PolyConstraint.isStrict (c : PolyConstraint) : Bool := c.sign == ">"

/-- `CoefficientConstraint`: a coefficient expression compared to zero. -/
structure CoefConstraint where
  coefficient : Coefficient
  sign : String
deriving DecidableEq, Repr

/-- `CoefficientConstraint.is_strict`. -/
def CoefConstraint.isStrict (c : CoefConstraint) : Bool := c.sign == ">"

/-- `CoefficientConstraint.is_equality`: sign `=` and at most two elements
whose variable multisets together hold exactly one variable.  (With zero
elements the source falls through and returns `None`, which is falsy.) -/
def CoefConstraint.isEquality (c : CoefConstraint) : Bool :=
  if c.sign ≠ "=" || decide (2 < c.coefficient.elements.length) then false
  else
    match c.coefficient.elements with
    | [e1, e2] => decide (e1.vars.length + e2.vars.length = 1)
    | [e1] => decide (e1.vars.length = 1)
    | _ => false

/-! ## Automatic theorem selection (PositiveModel.get_generated_constraints) -/

/-- The three generator names of `Constant.Theorem`. -/
inductive TheoremName
  | farkas
  | handelman
  | putinar
deriving DecidableEq, Repr

/-- The `auto` branch of `get_generated_constraints` for one Horn pair: the
goal's linearity and degree seed the accumulators, one pass over the
hypotheses maximizes the degree and conjoins the linearity flag, the theorem
is chosen by the if-chain, and all four degree knobs are set to the computed
maximum degree (returned here as the second component). -/
def autoSelect (lhs : List PolyConstraint) (rhs : PolyConstraint) : TheoremName × ℕ :=
  let rhsLinear := rhs.polynomial.isLinear
  let start : ℕ × Bool := (rhs.polynomial.getDeg, true)
  let degLin := lhs.foldl
    (fun p cons => (max p.1 cons.polynomial.getDeg, p.2 && cons.polynomial.isLinear)) start
  let thm := if degLin.2 && rhsLinear then TheoremName.farkas
             else if degLin.2 then TheoremName.handelman
             else TheoremName.putinar
  (thm, degLin.1)

theorem isMono_iff (m : Monomial) : m.isMono = true ↔ m.degrees.sum ≤ 1 := by
  unfold Monomial.isMono
  rw [Bool.and_eq_true, decide_eq_true_iff, List.all_eq_true]
  constructor
  · exact fun h => h.2
  · intro h
    refine ⟨?_, h⟩
    intro d hd
    have hle : d ≤ m.degrees.sum := List.single_le_sum (fun x _ => Nat.zero_le x) d hd
    have : d ≤ 1 := le_trans hle h
    interval_cases d <;> simp

theorem isLinear_iff (p : Polynomial) :
    p.isLinear = true ↔ ∀ m ∈ p.monomials, m.degrees.sum ≤ 1 := by
  unfold Polynomial.isLinear
  rw [List.all_eq_true]
  constructor
  · intro h m hm
    exact (isMono_iff m).mp (h m hm)
  · intro h m hm
    exact (isMono_iff m).mpr (h m hm)

theorem foldl_pair_split (lhs : List PolyConstraint) (a : ℕ) (b : Bool) :
    lhs.foldl (fun p cons =>
        (max p.1 cons.polynomial.getDeg, p.2 && cons.polynomial.isLinear)) (a, b) =
    (lhs.foldl (fun x c => max x c.polynomial.getDeg) a,
     b && lhs.all (fun c => c.polynomial.isLinear)) := by
  induction lhs generalizing a b with
  | nil => simp
  | cons c cs ih =>
    rw [List.foldl_cons, ih, List.all_cons, List.foldl_cons, ← Bool.and_assoc]

theorem foldl_max_map {α : Type _} (f : α → ℕ) (a : ℕ) (l : List α) :
    l.foldl (fun x c => max x (f c)) a = max a ((l.map f).foldr max 0) := by
  induction l generalizing a with
  | nil => simp
  | cons c cs ih =>
    rw [List.foldl_cons, ih, List.map_cons, List.foldr_cons, Nat.max_assoc]

theorem foldr_max_append (xs ys : List ℕ) :
    (xs ++ ys).foldr max 0 = max (xs.foldr max 0) (ys.foldr max 0) := by
  induction xs with
  | nil => simp
  | cons x l ih => rw [List.cons_append, List.foldr_cons, ih, List.foldr_cons, Nat.max_assoc]

/-- The maximum total degree of any monomial occurring in a list of
polynomials (0 when there is none). -/
def maxTotalDeg (ps : List Polynomial) : ℕ :=
  (ps.flatMap (fun p => p.monomials.map (fun m => m.degrees.sum))).foldr max 0

theorem getDeg_eq_foldr (p : Polynomial) :
    p.getDeg = (p.monomials.map (fun m => m.degrees.sum)).foldr max 0 := by
  unfold Polynomial.getDeg Monomial.getDeg
  rw [foldl_max_map (fun m => m.degrees.sum) 0 p.monomials, Nat.zero_max]

theorem foldl_max_getDeg_eq (a : ℕ) (lhs : List PolyConstraint) :
    lhs.foldl (fun x c => max x c.polynomial.getDeg) a =
    max a ((lhs.flatMap (fun c => c.polynomial.monomials.map (fun m => m.degrees.sum))).foldr max 0) := by
  induction lhs generalizing a with
  | nil => simp
  | cons c cs ih =>
    rw [List.foldl_cons, ih, List.flatMap_cons, foldr_max_append, Nat.max_assoc,
      getDeg_eq_foldr]

/-- C6: in auto mode, Farkas is selected iff goal and every hypothesis are
linear (every monomial has total degree at most 1), Handelman iff every
hypothesis is linear but the goal is not, Putinar iff some hypothesis is
nonlinear; and the degree (to which all four degree knobs are set for the
pair) is the maximum total degree of any monomial of the goal or a
hypothesis. -/
theorem C6_auto_selection (lhs : List PolyConstraint) (rhs : PolyConstraint) :
    ((autoSelect lhs rhs).1 = TheoremName.farkas ↔
      (∀ c ∈ rhs :: lhs, ∀ m ∈ c.polynomial.monomials, m.degrees.sum ≤ 1)) ∧
    ((autoSelect lhs rhs).1 = TheoremName.handelman ↔
      ((∀ c ∈ lhs, ∀ m ∈ c.polynomial.monomials, m.degrees.sum ≤ 1) ∧
       ¬ ∀ m ∈ rhs.polynomial.monomials, m.degrees.sum ≤ 1)) ∧
    ((autoSelect lhs rhs).1 = TheoremName.putinar ↔
      ¬ (∀ c ∈ lhs, ∀ m ∈ c.polynomial.monomials, m.degrees.sum ≤ 1)) ∧
    (autoSelect lhs rhs).2 = maxTotalDeg ((rhs :: lhs).map (·.polynomial)) := by
  have hsel : autoSelect lhs rhs =
      ((if ((lhs.all (fun c => c.polynomial.isLinear)) && rhs.polynomial.isLinear) = true
          then TheoremName.farkas
        else if (lhs.all (fun c => c.polynomial.isLinear)) = true then TheoremName.handelman
        else TheoremName.putinar),
       lhs.foldl (fun x c => max x c.polynomial.getDeg) rhs.polynomial.getDeg) := by
    simp only [autoSelect, foldl_pair_split, Bool.true_and]
  have hAiff : (lhs.all (fun c => c.polynomial.isLinear)) = true ↔
      ∀ c ∈ lhs, ∀ m ∈ c.polynomial.monomials, m.degrees.sum ≤ 1 := by
    rw [List.all_eq_true]
    constructor
    · intro h c hc
      exact (isLinear_iff c.polynomial).mp (h c hc)
    · intro h c hc
      exact (isLinear_iff c.polynomial).mpr (h c hc)
  have hBiff := isLinear_iff rhs.polynomial
  have hdeg : (autoSelect lhs rhs).2 = maxTotalDeg ((rhs :: lhs).map (·.polynomial)) := by
    rw [hsel]
    show lhs.foldl (fun x c => max x c.polynomial.getDeg) rhs.polynomial.getDeg = _
    rw [foldl_max_getDeg_eq, getDeg_eq_foldr]
    unfold maxTotalDeg
    rw [List.map_cons, List.flatMap_cons, foldr_max_append]
    congr 1
    rw [List.flatMap_map]
  refine ⟨?_, ?_, ?_, hdeg⟩ <;> rw [hsel] <;>
    cases hA : lhs.all (fun c => c.polynomial.isLinear) <;>
    cases hB : rhs.polynomial.isLinear
  all_goals rw [hA] at hAiff
  all_goals rw [hB] at hBiff
  -- farkas characterization, cases (A,B) = (f,f), (f,t), (t,f), (t,t)
  · exact iff_of_false (by simp)
      (fun h => Bool.false_ne_true (hAiff.mpr (fun c hc => h c (List.mem_cons_of_mem _ hc))))
  · exact iff_of_false (by simp)
      (fun h => Bool.false_ne_true (hAiff.mpr (fun c hc => h c (List.mem_cons_of_mem _ hc))))
  · exact iff_of_false (by simp)
      (fun h => Bool.false_ne_true (hBiff.mpr (h rhs (List.mem_cons_self _ _))))
  · exact iff_of_true (by simp)
      (List.forall_mem_cons.mpr ⟨hBiff.mp rfl, hAiff.mp rfl⟩)
  -- handelman characterization
  · exact iff_of_false (by simp)
      (fun h => Bool.false_ne_true (hAiff.mpr h.1))
  · exact iff_of_false (by simp)
      (fun h => Bool.false_ne_true (hAiff.mpr h.1))
  · exact iff_of_true (by simp)
      ⟨hAiff.mp rfl, fun h => Bool.false_ne_true (hBiff.mpr h)⟩
  · exact iff_of_false (by simp)
      (fun h => h.2 (hBiff.mp rfl))
  -- putinar characterization
  · exact iff_of_true (by simp)
      (fun h => Bool.false_ne_true (hAiff.mpr h))
  · exact iff_of_true (by simp)
      (fun h => Bool.false_ne_true (hAiff.mpr h))
  · exact iff_of_false (by simp)
      (fun h => h (hAiff.mp rfl))
  · exact iff_of_false (by simp)
      (fun h => h (hAiff.mp rfl))

/-! ## C4: canonical form of polynomials -/

theorem degLex_refl (l : List ℕ) : degLex l l = true := by
  induction l with
  | nil => rfl
  | cons x xs ih => simp [degLex, ih]

theorem degLex_total (a : List ℕ) : ∀ b, degLex a b = true ∨ degLex b a = true := by
  induction a with
  | nil => intro b; cases b <;> simp [degLex]
  | cons x xs ih =>
    intro b
    cases b with
    | nil => simp [degLex]
    | cons y ys =>
      by_cases h : x = y
      · subst h
        simpa [degLex] using ih ys
      · simp only [degLex, if_neg h, if_neg (Ne.symm h), decide_eq_true_iff]
        omega

theorem degLex_trans : ∀ a b c : List ℕ, degLex a b = true → degLex b c = true →
    degLex a c = true := by
  intro a
  induction a with
  | nil => intro b c _ _; cases c <;> simp [degLex]
  | cons x xs ih =>
    intro b c hab hbc
    cases b with
    | nil => simp [degLex] at hab
    | cons y ys =>
      cases c with
      | nil => simp [degLex] at hbc
      | cons z zs =>
        by_cases hxy : x = y <;> by_cases hyz : y = z
        · subst hxy; subst hyz
          simp only [degLex, if_pos rfl] at *
          exact ih ys zs hab hbc
        · subst hxy
          simp only [degLex, if_pos rfl, if_neg hyz] at *
          exact hbc
        · subst hyz
          simp only [degLex, if_pos rfl, if_neg hxy] at *
          exact hab
        · simp only [degLex, if_neg hxy, if_neg hyz, decide_eq_true_iff] at hab hbc
          by_cases hxz : x = z
          · subst hxz; omega
          · simp only [degLex, if_neg hxz, decide_eq_true_iff]
            omega

theorem degLex_antisymm : ∀ a b : List ℕ, degLex a b = true → degLex b a = true →
    a = b := by
  intro a
  induction a with
  | nil => intro b hab hba; cases b with
    | nil => rfl
    | cons y ys => simp [degLex] at hba
  | cons x xs ih =>
    intro b hab hba
    cases b with
    | nil => simp [degLex] at hab
    | cons y ys =>
      by_cases hxy : x = y
      · subst hxy
        simp only [degLex, if_pos rfl] at hab hba
        rw [ih ys hab hba]
      · simp only [degLex, if_neg hxy, if_neg (Ne.symm hxy), decide_eq_true_iff] at hab hba
        omega

theorem monoLtB_total (a b : Monomial) :
    Monomial.ltB a b = true ∨ Monomial.ltB b a = true := by
  unfold Monomial.ltB
  by_cases h : a.vars.length = b.vars.length
  · rw [if_pos h, if_pos h.symm]
    exact degLex_total a.degrees b.degrees
  · rw [if_neg h, if_neg (fun hh => h hh.symm)]
    simp only [decide_eq_true_iff]
    omega

theorem monoLtB_trans (a b c : Monomial) (hab : Monomial.ltB a b = true)
    (hbc : Monomial.ltB b c = true) : Monomial.ltB a c = true := by
  unfold Monomial.ltB at *
  by_cases h1 : a.vars.length = b.vars.length <;>
    by_cases h2 : b.vars.length = c.vars.length
  · rw [if_pos h1] at hab
    rw [if_pos h2] at hbc
    rw [if_pos (h1.trans h2)]
    exact degLex_trans _ _ _ hab hbc
  · rw [if_pos h1] at hab
    rw [if_neg h2, decide_eq_true_iff] at hbc
    have hac : ¬ a.vars.length = c.vars.length := by omega
    rw [if_neg hac, decide_eq_true_iff]
    omega
  · rw [if_neg h1, decide_eq_true_iff] at hab
    rw [if_pos h2] at hbc
    have hac : ¬ a.vars.length = c.vars.length := by omega
    rw [if_neg hac, decide_eq_true_iff]
    omega
  · rw [if_neg h1, decide_eq_true_iff] at hab
    rw [if_neg h2, decide_eq_true_iff] at hbc
    have hac : ¬ a.vars.length = c.vars.length := by omega
    rw [if_neg hac, decide_eq_true_iff]
    omega

instance : IsTotal Monomial (fun a b => Monomial.ltB a b = true) := ⟨monoLtB_total⟩

instance : IsTrans Monomial (fun a b => Monomial.ltB a b = true) :=
  ⟨fun a b c => monoLtB_trans a b c⟩

theorem sortMonos_sorted (l : List Monomial) :
    (sortMonos l).Sorted (fun a b => Monomial.ltB a b = true) :=
  List.sorted_insertionSort _ l

theorem sortMonos_mem {l : List Monomial} {m : Monomial} :
    m ∈ sortMonos l ↔ m ∈ l :=
  (List.perm_insertionSort _ l).mem_iff

theorem ltB_of_degLex {a b : Monomial} (h : a.vars.length = b.vars.length)
    (hd : degLex a.degrees b.degrees = true) : Monomial.ltB a b = true := by
  unfold Monomial.ltB
  rw [if_pos h]
  exact hd

theorem degLex_of_ltB {a b : Monomial} (h : a.vars.length = b.vars.length)
    (hl : Monomial.ltB a b = true) : degLex a.degrees b.degrees = true := by
  unfold Monomial.ltB at hl
  rwa [if_pos h] at hl

theorem polyReviseGo_spec (V : List UVar) (l : List Monomial) :
    ∀ (cur : Monomial) (acc : Coefficient),
    cur.vars = V → (∀ m ∈ l, m.vars = V) →
    l.Sorted (fun a b => Monomial.ltB a b = true) →
    (∀ m ∈ l, degLex cur.degrees m.degrees = true) →
    (∀ o ∈ polyReviseGo cur acc l,
      o.vars = sortVars V ∧ degLex cur.degrees o.degrees = true) ∧
    (polyReviseGo cur acc l).Pairwise
      (fun a b => degLex a.degrees b.degrees = true ∧ a.degrees ≠ b.degrees) := by
  induction l with
  | nil =>
    intro cur acc hcur _ _ _
    refine ⟨?_, ?_⟩
    · intro o ho
      rw [polyReviseGo] at ho
      rcases List.mem_singleton.mp ho with rfl
      exact ⟨by rw [Monomial.init, hcur], degLex_refl _⟩
    · rw [polyReviseGo]
      exact List.pairwise_singleton _ _
  | cons f rest ih =>
    intro cur acc hcur hvars hsorted hle
    have hf : f.vars = V := hvars f (List.mem_cons_self f rest)
    have hrestvars : ∀ m ∈ rest, m.vars = V :=
      fun m hm => hvars m (List.mem_cons_of_mem f hm)
    have hrestsorted := hsorted.of_cons
    have hflerest : ∀ m ∈ rest, degLex f.degrees m.degrees = true := by
      intro m hm
      have hrel := List.rel_of_sorted_cons hsorted m hm
      exact degLex_of_ltB (by rw [hf, hrestvars m hm]) hrel
    have hcurf : degLex cur.degrees f.degrees = true :=
      hle f (List.mem_cons_self f rest)
    by_cases heq : Monomial.eqB cur f
    · rw [polyReviseGo, if_pos heq]
      exact ih cur (acc.add f.coef) hcur hrestvars hrestsorted
        (fun m hm => degLex_trans _ _ _ hcurf (hflerest m hm))
    · rw [polyReviseGo, if_neg heq]
      have hrec := ih f ((Coefficient.init []).add f.coef) hf hrestvars hrestsorted hflerest
      have hdegne : cur.degrees ≠ f.degrees := by
        intro hdeq
        apply heq
        unfold Monomial.eqB
        rw [decide_eq_true_iff]
        exact ⟨by rw [hcur, hf], hdeq⟩
      refine ⟨?_, ?_⟩
      · intro o ho
        rcases List.mem_cons.mp ho with rfl | ho2
        · exact ⟨by rw [Monomial.init, hcur], degLex_refl _⟩
        · obtain ⟨hv, hd⟩ := hrec.1 o ho2
          exact ⟨hv, degLex_trans _ _ _ hcurf hd⟩
      · refine List.Pairwise.cons ?_ hrec.2
        intro o ho
        obtain ⟨hv, hd⟩ := hrec.1 o ho
        have hhead : (Monomial.init cur.vars cur.degrees acc).degrees = cur.degrees := rfl
        refine ⟨?_, ?_⟩
        · rw [hhead]
          exact degLex_trans _ _ _ hcurf hd
        · rw [hhead]
          intro hcontra
          rw [← hcontra] at hd
          exact hdegne (degLex_antisymm _ _ hcurf hd)

theorem polyReviseRuns_spec (V : List UVar) (l : List Monomial)
    (hvars : ∀ m ∈ l, m.vars = V)
    (hsorted : l.Sorted (fun a b => Monomial.ltB a b = true)) :
    (∀ o ∈ polyReviseRuns l, o.vars = sortVars V) ∧
    (polyReviseRuns l).Pairwise
      (fun a b => degLex a.degrees b.degrees = true ∧ a.degrees ≠ b.degrees) := by
  cases l with
  | nil => exact ⟨fun o ho => absurd ho (List.not_mem_nil o), List.Pairwise.nil⟩
  | cons e rest =>
    have he : e.vars = V := hvars e (List.mem_cons_self e rest)
    have hspec := polyReviseGo_spec V rest e ((Coefficient.init []).add e.coef) he
      (fun m hm => hvars m (List.mem_cons_of_mem e hm)) hsorted.of_cons
      (fun m hm => degLex_of_ltB
        (by rw [he, hvars m (List.mem_cons_of_mem e hm)])
        (List.rel_of_sorted_cons hsorted m hm))
    exact ⟨fun o ho => (hspec.1 o ho).1, hspec.2⟩
theorem pairwise_imp_mem {α : Type _} {R S : α → α → Prop} : ∀ {l : List α},
    (∀ a ∈ l, ∀ b ∈ l, R a b → S a b) → l.Pairwise R → l.Pairwise S := by
  intro l
  induction l with
  | nil => intro _ _; exact List.Pairwise.nil
  | cons x xs ih =>
    intro h hp
    rcases List.pairwise_cons.mp hp with ⟨hx, hxs⟩
    refine List.pairwise_cons.mpr ⟨?_, ?_⟩
    · intro b hb
      exact h x (List.mem_cons_self x xs) b (List.mem_cons_of_mem x hb) (hx b hb)
    · exact ih (fun a ha b hb => h a (List.mem_cons_of_mem x ha) b (List.mem_cons_of_mem x hb)) hxs

theorem reviseP_canonical (p : Polynomial) (h : ∀ m ∈ p.monomials, m.vars = p.vars) :
    p.reviseP.monomials.Sorted (fun a b => Monomial.ltB a b = true) ∧
    p.reviseP.monomials.Pairwise (fun a b => a.degrees ≠ b.degrees) := by
  have hruns := polyReviseRuns_spec p.vars (sortMonos p.monomials)
    (fun m hm => h m (sortMonos_mem.mp hm)) (sortMonos_sorted _)
  have hsortedout : (polyReviseRuns (sortMonos p.monomials)).Sorted
      (fun a b => Monomial.ltB a b = true) := by
    refine pairwise_imp_mem ?_ hruns.2
    intro a ha b hb hab
    exact ltB_of_degLex (by rw [hruns.1 a ha, hruns.1 b hb]) hab.1
  have heq : sortMonos (polyReviseRuns (sortMonos p.monomials)) =
      polyReviseRuns (sortMonos p.monomials) :=
    hsortedout.insertionSort_eq
  have hmono : p.reviseP.monomials = polyReviseRuns (sortMonos p.monomials) := by
    show sortMonos (polyReviseRuns (sortMonos p.monomials)) = _
    exact heq
  rw [hmono]
  exact ⟨hsortedout, hruns.2.imp (fun hab => hab.2)⟩

/-- The monomial order claimed by the spec — strictly increasing in
(total degree `|e|`, then lexicographic on `e`) — checked on consecutive
monomials; strictness also enforces at most one monomial per exponent
vector.  This definition follows the claim's words, for comparison with the
source's order. -/
def specDegLtStrict : List ℕ → List ℕ → Bool
  | x :: xs, y :: ys => if x = y then specDegLtStrict xs ys else decide (x < y)
  | _, _ => false

/-- The claimed canonical key order on monomials: total degree first, then
lexicographic on the exponent vector. -/
def specMonoKeyLt (a b : Monomial) : Bool :=
  decide (a.degrees.sum < b.degrees.sum) ||
  (decide (a.degrees.sum = b.degrees.sum) && specDegLtStrict a.degrees b.degrees)

/-- The claimed canonical form of a monomial sequence: strictly increasing
in the claimed key. -/
def specClaimedCanonical : List Monomial → Bool
  | [] => true
  | [_] => true
  | a :: b :: rest => specMonoKeyLt a b && specClaimedCanonical (b :: rest)

/-- A sample program variable used in concrete computations. -/
def pvX : UVar := ⟨"program_var", "x", 100⟩

/-- A sample program variable used in concrete computations. -/
def pvY : UVar := ⟨"program_var", "y", 101⟩

/-- The constant coefficient 1. -/
def oneCoef : Coefficient := Coefficient.init [Element.init 1 []]

/-- C4, counterexample: constructing the polynomial `y² + x` over `[x, y]`
sorts its monomials as `[y², x]` (exponent vectors `[0,2]`, `[1,0]`),
because `Monomial.__lt__` compares exponent vectors lexicographically
without comparing total degrees first; the claimed canonical order
(by total degree `|e|`, then lex) would put `x` (total degree 1)
before `y²` (total degree 2). -/
theorem C4_canonical_order_counterexample :
    specClaimedCanonical
      ((Polynomial.init [pvX, pvY]
        [Monomial.init [pvX, pvY] [0, 2] oneCoef,
         Monomial.init [pvX, pvY] [1, 0] oneCoef]).monomials) = false := by
  decide

/-- C4, amended: every constructed Polynomial has its monomial sequence
sorted by the source's comparator — by number of variables, then
lexicographically on the exponent vector, with ties allowed; total degree is
not part of the key — and `revise` (hence `+`, `−`, `×`, which all return
revised polynomials) additionally merges monomials so that no two share an
exponent vector, while plain construction only sorts. -/
theorem C4_canonical_amended (vs : List UVar) (ms : List Monomial) (p : Polynomial)
    (h : ∀ m ∈ p.monomials, m.vars = p.vars) :
    (Polynomial.init vs ms).monomials.Sorted (fun a b => Monomial.ltB a b = true) ∧
    p.reviseP.monomials.Sorted (fun a b => Monomial.ltB a b = true) ∧
    p.reviseP.monomials.Pairwise (fun a b => a.degrees ≠ b.degrees) := by
  refine ⟨sortMonos_sorted ms, ?_, ?_⟩
  · exact (reviseP_canonical p h).1
  · exact (reviseP_canonical p h).2

/-- C4, witness for the amended theorem at a concrete polynomial. -/
theorem C4_canonical_amended_witness :
    ((Polynomial.init [pvX] [Monomial.init [pvX] [1] oneCoef]).monomials.Sorted
      (fun a b => Monomial.ltB a b = true)) ∧
    ((Polynomial.mk [pvX] [⟨[pvX], [1], oneCoef⟩,
        ⟨[pvX], [1], oneCoef⟩]).reviseP.monomials.Sorted
      (fun a b => Monomial.ltB a b = true)) ∧
    ((Polynomial.mk [pvX] [⟨[pvX], [1], oneCoef⟩,
        ⟨[pvX], [1], oneCoef⟩]).reviseP.monomials.Pairwise
      (fun a b => a.degrees ≠ b.degrees)) := by
  have h := C4_canonical_amended [pvX] [Monomial.init [pvX] [1] oneCoef]
    (Polynomial.mk [pvX] [⟨[pvX], [1], oneCoef⟩, ⟨[pvX], [1], oneCoef⟩])
    (by
      intro m hm
      simp only [List.mem_cons, List.not_mem_nil, or_false] at hm
      rcases hm with rfl | rfl <;> rfl)
  exact h
/-! ## Equality elimination over an explicit element store (C2, C8)

`remove_equality_constraints` mutates the `Element` objects reachable from
the constraint list in place.  We model the Python heap of `Element` objects
as a store addressed by ids; a coefficient holds the id list of its element
objects, and the heuristic is a function on the store. -/

/-- The heap of `Element` objects, addressed by position. -/
abbrev Store := List Element

/-- A `CoefficientConstraint` whose coefficient references element objects
in the store, in the order of the `Coefficient.elements` list. -/
structure StoreCons where
  sign : String
  elemIds : List ℕ
deriving DecidableEq, Repr

/-- The constraint structure passed to `remove_equality_constraints`: a list
of DNFs, each a list of clauses, each a list of constraints. -/
abbrev StoreCss := List (List (List StoreCons))

/-- Dereference a constraint's coefficient elements in the store. -/
def derefElems (st : Store) (c : StoreCons) : List Element :=
  c.elemIds.map (fun i => st.getD i (Element.init 0 []))

/-- `is_equality` of a store constraint, on its dereferenced elements. -/
def storeIsEquality (st : Store) (c : StoreCons) : Bool :=
  CoefConstraint.isEquality ⟨Coefficient.mk (derefElems st c), c.sign⟩

/-- First `some` produced by `f` along a list. -/
def firstSome {α β : Type _} (f : α → Option β) : List α → Option β
  | [] => none
  | x :: rest =>
    match f x with
    | some y => some y
    | none => firstSome f rest

/-- `PositiveModel.get_equality_constraint`: the first constraint, in nested
iteration order, classified as equality-of-variable-to-constant. -/
def getEqualityConstraint (st : Store) (cs : StoreCss) : Option StoreCons :=
  firstSome (fun dnf => firstSome (fun lit => firstSome
    (fun c => if storeIsEquality st c then some c else none) lit) dnf) cs

/-- Solving the found equality for its variable (lines 380–397): with one
element `q·x = 0` the amount stays 0; with two elements the element holding
the single variable determines `x` and the other element's constant `c₂`
gives the amount `−c₂/c₁` (or 0 when `c₂ = 0`).  The fallbacks are
unreachable for constraints classified by `is_equality`. -/
def solveEquality (st : Store) (c : StoreCons) : UVar × ℚ :=
  match derefElems st c with
  | [e] => (e.vars.headD ⟨"", "", 0⟩, 0)
  | [e1, e2] =>
    if e1.vars.length = 1 then
      (e1.vars.headD ⟨"", "", 0⟩,
       if e2.constant = 0 then 0 else qDiv (qNeg e2.constant) e1.constant)
    else
      (e2.vars.headD ⟨"", "", 0⟩,
       if e1.constant = 0 then 0 else qDiv (qNeg e1.constant) e2.constant)
  | _ => (⟨"", "", 0⟩, 0)

/-- One visit of the substitution to a constraint: every element object of
its coefficient that contains the variable loses one occurrence
(`list.remove`) and has its constant multiplied by the amount, in place. -/
def substPassCons (v : UVar) (amt : ℚ) (st : Store) (c : StoreCons) : Store :=
  c.elemIds.foldl (fun s i =>
    match s.get? i with
    | none => s
    | some e => if v ∈ e.vars then s.set i ⟨qMul e.constant amt, e.vars.erase v⟩ else s) st

/-- The substitution sweep over every constraint reachable from the list, in
iteration order (an element object shared by several constraints is visited
once per reference, exactly as the Python loop does). -/
def substPass (v : UVar) (amt : ℚ) (cs : StoreCss) (st : Store) : Store :=
  cs.foldl (fun s dnf =>
    dnf.foldl (fun s2 lit =>
      lit.foldl (fun s3 c => substPassCons v amt s3 c) s2) s) st

/-- Total number of variable occurrences reachable from the constraints. -/
def totalOcc (st : Store) (cs : StoreCss) : ℕ :=
  (cs.map (fun dnf =>
    (dnf.map (fun lit =>
      (lit.map (fun c => ((derefElems st c).map (fun e => e.vars.length)).sum)).sum)).sum)).sum

/-- The `while True` loop of `remove_equality_constraints`, with fuel: each
iteration that continues removes at least one reachable variable occurrence
(the found equality constraint contains an element holding the solved
variable, and the sweep visits it), so `totalOcc + 1` steps of fuel always
reach the loop's exit condition. -/
def removeEqGo (cs : StoreCss) : ℕ → Store → Store
  | 0, st => st
  | n + 1, st =>
    match getEqualityConstraint st cs with
    | none => st
    | some c =>
      let va := solveEquality st c
      removeEqGo cs n (substPass va.1 va.2 cs st)

/-- `PositiveModel.remove_equality_constraints`: iterate the substitution to
the fixed point and return the constraint list itself (`return
all_constraint`), with the store of element objects mutated. -/
def removeEqualityConstraints (st : Store) (cs : StoreCss) : Store × StoreCss :=
  (removeEqGo cs (totalOcc st cs + 1) st, cs)

/-- Satisfaction of a store constraint under an assignment, by the sign's
meaning in the emitted script. -/
def satisfiesCons (σ : UVar → ℚ) (st : Store) (c : StoreCons) : Prop :=
  if c.sign = "=" then evalElems σ (derefElems st c) = 0
  else if c.sign = ">" then 0 < evalElems σ (derefElems st c)
  else if c.sign = ">=" then 0 ≤ evalElems σ (derefElems st c)
  else if c.sign = "!=" then evalElems σ (derefElems st c) ≠ 0
  else False

/-- Satisfaction of the whole constraint structure: every DNF has a clause
all of whose constraints hold. -/
def satisfiesState (σ : UVar → ℚ) (st : Store) (cs : StoreCss) : Prop :=
  ∀ dnf ∈ cs, ∃ lit ∈ dnf, ∀ c ∈ lit, satisfiesCons σ st c

/-- The store of `{a = 1} ∧ {a·a − 4 = 0}`: elements `−1`, `1·a`, `−4`,
`1·a·a`. -/
def c2Store : Store := [⟨-1, []⟩, ⟨1, [tvA]⟩, ⟨-4, []⟩, ⟨1, [tvA, tvA]⟩]

/-- The constraint structure of `{a = 1} ∧ {a·a − 4 = 0}`: one DNF, one
clause, two equality constraints over the store. -/
def c2Css : StoreCss := [[[⟨"=", [0, 1]⟩, ⟨"=", [2, 3]⟩]]]

/-- C2: the equality-elimination heuristic removes only one occurrence of
the solved variable from each term and multiplies the term's rational by q
once (not `q^count`), and it never drops the defining equality — it leaves
it in the list, trivialized.  On `{a = 1} ∧ {a·a − 4 = 0}` this is unsound:
the input is unsatisfiable, yet after the heuristic (first pass turns
`a·a − 4` into `a − 4` by deleting one occurrence, second pass then
eliminates `a` again) both constraints are the trivially true `−1 + 1 = 0`
and `−4 + 4 = 0`, so the result is satisfied by every assignment. -/
theorem C2_equality_elimination_unsound :
    (removeEqualityConstraints c2Store c2Css).1 =
      [⟨-1, []⟩, ⟨1, []⟩, ⟨-4, []⟩, ⟨4, []⟩] ∧
    getEqualityConstraint (removeEqualityConstraints c2Store c2Css).1 c2Css = none ∧
    (∀ σ : UVar → ℚ, ¬ satisfiesState σ c2Store c2Css) ∧
    (∀ σ : UVar → ℚ,
      satisfiesState σ (removeEqualityConstraints c2Store c2Css).1 c2Css) := by
  refine ⟨by decide, by decide, ?_, ?_⟩
  · intro σ h
    rcases h [[⟨"=", [0, 1]⟩, ⟨"=", [2, 3]⟩]] (by simp [c2Css]) with ⟨lit, hlit, hall⟩
    simp only [List.mem_singleton] at hlit
    subst hlit
    have h1 := hall ⟨"=", [0, 1]⟩ (by simp)
    have h2 := hall ⟨"=", [2, 3]⟩ (by simp)
    simp only [satisfiesCons, if_pos rfl, derefElems, c2Store, evalElems,
      List.map_cons, List.map_nil, Element.eval, List.getD, List.sum_cons,
      List.sum_nil, List.prod_cons, List.prod_nil] at h1 h2
    norm_num at h1 h2
    nlinarith [h1, h2]
  · intro σ
    intro dnf hdnf
    simp only [c2Css, List.mem_singleton] at hdnf
    subst hdnf
    refine ⟨[⟨"=", [0, 1]⟩, ⟨"=", [2, 3]⟩], by simp, ?_⟩
    intro c hc
    have hstore : (removeEqualityConstraints c2Store c2Css).1 =
        [⟨-1, []⟩, ⟨1, []⟩, ⟨-4, []⟩, ⟨4, []⟩] := by decide
    rcases List.mem_cons.mp hc with rfl | hc2
    · simp [satisfiesCons, derefElems, hstore, evalElems, Element.eval]
    · rcases List.mem_singleton.mp hc2 with rfl
      simp [satisfiesCons, derefElems, hstore, evalElems, Element.eval]

/-- The store of `{a = 3} ∧ {a·b − 1 = 0}`: elements `−3`, `1·a`, `−1`,
`1·a·b`. -/
def c8Store : Store := [⟨-3, []⟩, ⟨1, [tvA]⟩, ⟨-1, []⟩, ⟨1, [tvA, tvB]⟩]

/-- The constraint structure of `{a = 3} ∧ {a·b − 1 = 0}`. -/
def c8Css : StoreCss := [[[⟨"=", [0, 1]⟩, ⟨"=", [2, 3]⟩]]]

/-- C8, counterexample: the heuristic mutates the `Element` objects
reachable from its input in place — after running it on
`{a = 3} ∧ {a·b − 1 = 0}` the store of elements differs from the input
store, so the input values are not left unchanged. -/
theorem C8_mutation_counterexample :
    (removeEqualityConstraints c8Store c8Css).1 ≠ c8Store := by
  decide

/-- C8, amended: `remove_equality_constraints` returns the very constraint
list it was given — it builds no new DNF lists — and performs the
substitution by mutating the reachable `Element` objects in place: on
`{a = 3} ∧ {a·b − 1 = 0}` the element `1·a` becomes `3` (variable multiset
emptied, rational scaled), and `1·a·b` becomes `1` after both fixed-point
passes. -/
theorem C8_mutation_amended :
    (∀ (st : Store) (cs : StoreCss), (removeEqualityConstraints st cs).2 = cs) ∧
    (removeEqualityConstraints c8Store c8Css).1 =
      [⟨-3, []⟩, ⟨3, []⟩, ⟨-1, []⟩, ⟨1, []⟩] := by
  exact ⟨fun st cs => rfl, by decide⟩
/-! ## Solver-output parsing (PositiveModel.run_on_solver, C9)

Python strings manipulated character by character are modelled as their
lists of characters. -/

/-- A Python string, as its character list. -/
abbrev PyStr := List Char

/-- Python `str.split(sep)` for a one-character separator: every occurrence
splits, so the result has one part per separator plus one. -/
def pySplit (sep : Char) : PyStr → List PyStr
  | [] => [[]]
  | c :: rest =>
    let parts := pySplit sep rest
    if c = sep then [] :: parts
    else
      match parts with
      | p :: ps => (c :: p) :: ps
      | [] => [[c]]

/-- Python `sep.join(parts)` for a one-character separator. -/
def pyJoin (sep : Char) : List PyStr → PyStr
  | [] => []
  | [p] => p
  | p :: q :: rest => p ++ sep :: pyJoin sep (q :: rest)

/-- The whitespace stripped by Python `str.strip()` (the characters that
occur in solver output). -/
def pyIsSpace (c : Char) : Bool :=
  c = ' ' || c = '\n' || c = '\t' || c = '\r'

/-- Python `str.strip()`. -/
def pyStrip (s : PyStr) : PyStr :=
  ((s.dropWhile pyIsSpace).reverse.dropWhile pyIsSpace).reverse

/-- Python `s[1:-1]`. -/
def pySlice1m1 (s : PyStr) : PyStr := (s.drop 1).dropLast

/-- Python `s[2:-1]`. -/
def pySlice2m1 (s : PyStr) : PyStr := (s.drop 2).dropLast

/-- Python-dict insertion into an association list: an existing key keeps
its position and gets the new value; a new key is appended. -/
def updateAssoc (k : UVar) (v : PyStr) : List (UVar × PyStr) → List (UVar × PyStr)
  | [] => [(k, v)]
  | (k2, v2) :: rest => if k2 = k then (k2, v) :: rest else (k2, v2) :: updateAssoc k v rest

/-- Python-dict insertion keyed by name strings. -/
def updateAssocStr (k : PyStr) (v : PyStr) : List (PyStr × PyStr) → List (PyStr × PyStr)
  | [] => [(k, v)]
  | (k2, v2) :: rest => if k2 = k then (k2, v) :: rest else (k2, v2) :: updateAssocStr k v rest

/-- One iteration of the model-parse loop (lines 322–330): strip the line,
strip the outer parens slice, split on blanks; the first token is the
variable name and the rest, re-joined, the value; the first template
variable with that name records the binding, other names are ignored. -/
def recordLine (tvs : List UVar) (dict : List (UVar × PyStr)) (line : PyStr) :
    List (UVar × PyStr) :=
  let line2 := pyStrip (pySlice1m1 (pyStrip line))
  let toks := pySplit ' ' line2
  let varName := toks.headD []
  let varValue := pyJoin ' ' (toks.drop 1)
  match tvs.find? (fun tv => decide (tv.name.data = varName)) with
  | some tv => updateAssoc tv varValue dict
  | none => dict

/-- The status/values extraction of `run_on_solver` (lines 309–315): the
first line is the status and the remaining lines, joined and sliced
`[1:-1]`, the value text; an `unsupported` first line is replaced by the
second line — whose absence raises `IndexError` — with the value text then
sliced `[2:-1]` from the third line on. -/
def parseStatusLine (output : PyStr) : Except String (PyStr × PyStr) :=
  let lines := pySplit '\n' output
  let isSat := lines.headD []
  let values := pyStrip (pySlice1m1 (pyJoin '\n' (lines.drop 1)))
  if isSat = "unsupported".data then
    match lines.get? 1 with
    | none => .error "IndexError"
    | some l2 => .ok (l2, pyStrip (pySlice2m1 (pyJoin '\n' (lines.drop 2))))
  else .ok (isSat, values)

/-- The model built from the value text on a `sat` status: parse each line
and key the recorded bindings by the template-variable names. -/
def buildModel (tvs : List UVar) (values : PyStr) : List (PyStr × PyStr) :=
  ((pySplit '\n' values).foldl (recordLine tvs) []).foldl
    (fun acc kv => updateAssocStr kv.1.name.data kv.2 acc) []

/-- The returned pair of `run_on_solver` (lines 316–335): `unsat` and any
status other than `sat` return an empty model; `sat` returns the parsed
model. -/
def finishParse (tvs : List UVar) (sv : PyStr × PyStr) : PyStr × List (PyStr × PyStr) :=
  if sv.1 = "unsat".data then ("unsat".data, [])
  else if sv.1 ≠ "sat".data then ("unknown".data, [])
  else ("sat".data, buildModel tvs sv.2)

/-- `PositiveModel.run_on_solver`, from the solver-availability check to the
returned pair. -/
def runOnSolverParse (solverAvailable : Bool) (tvs : List UVar) (output : PyStr) :
    Except String (PyStr × List (PyStr × PyStr)) :=
  if !solverAvailable then .ok ("unknown".data, [])
  else
    match parseStatusLine output with
    | .error e => .error e
    | .ok sv => .ok (finishParse tvs sv)

theorem updateAssoc_keys (k : UVar) (v : PyStr) :
    ∀ (d : List (UVar × PyStr)) (kv : UVar × PyStr), kv ∈ updateAssoc k v d →
      kv.1 = k ∨ kv.1 ∈ d.map (fun x => x.1) := by
  intro d
  induction d with
  | nil =>
    intro kv hkv
    rw [updateAssoc] at hkv
    rcases List.mem_singleton.mp hkv with rfl
    exact Or.inl rfl
  | cons hd tl ih =>
    intro kv hkv
    rw [updateAssoc] at hkv
    by_cases h : hd.1 = k
    · rw [if_pos h] at hkv
      rcases List.mem_cons.mp hkv with rfl | hkv2
      · exact Or.inr (by simp)
      · exact Or.inr (by simp [List.mem_cons.mpr (Or.inr (List.mem_map_of_mem _ hkv2))])
    · rw [if_neg h] at hkv
      rcases List.mem_cons.mp hkv with rfl | hkv2
      · exact Or.inr (by simp)
      · rcases ih kv hkv2 with h1 | h2
        · exact Or.inl h1
        · exact Or.inr (by simp [h2])

theorem recordLine_keys (tvs : List UVar) (dict : List (UVar × PyStr)) (line : PyStr)
    (hd : ∀ kv ∈ dict, kv.1 ∈ tvs) :
    ∀ kv ∈ recordLine tvs dict line, kv.1 ∈ tvs := by
  intro kv hkv
  unfold recordLine at hkv
  dsimp only at hkv
  rcases hfind : List.find? (fun tv => decide (tv.name.data =
      (pySplit ' ' (pyStrip (pySlice1m1 (pyStrip line)))).headD [])) tvs with _ | tv
  · rw [hfind] at hkv
    exact hd kv hkv
  · rw [hfind] at hkv
    rcases updateAssoc_keys _ _ _ _ hkv with h1 | h2
    · rw [h1]
      exact List.mem_of_find?_eq_some hfind
    · rcases List.mem_map.mp h2 with ⟨kv2, hkv2, hkey⟩
      rw [← hkey]
      exact hd kv2 hkv2

theorem foldl_recordLine_keys (tvs : List UVar) (ls : List PyStr) :
    ∀ (dict : List (UVar × PyStr)), (∀ kv ∈ dict, kv.1 ∈ tvs) →
      ∀ kv ∈ ls.foldl (recordLine tvs) dict, kv.1 ∈ tvs := by
  induction ls with
  | nil => intro dict hd kv hkv; exact hd kv hkv
  | cons l rest ih =>
    intro dict hd kv hkv
    exact ih (recordLine tvs dict l) (recordLine_keys tvs dict l hd) kv hkv

theorem updateAssocStr_keys (k v : PyStr) :
    ∀ (d : List (PyStr × PyStr)) (kv : PyStr × PyStr), kv ∈ updateAssocStr k v d →
      kv.1 = k ∨ kv.1 ∈ d.map (fun x => x.1) := by
  intro d
  induction d with
  | nil =>
    intro kv hkv
    rw [updateAssocStr] at hkv
    rcases List.mem_singleton.mp hkv with rfl
    exact Or.inl rfl
  | cons hd tl ih =>
    intro kv hkv
    rw [updateAssocStr] at hkv
    by_cases h : hd.1 = k
    · rw [if_pos h] at hkv
      rcases List.mem_cons.mp hkv with rfl | hkv2
      · exact Or.inr (by simp)
      · exact Or.inr (by simp [List.mem_cons.mpr (Or.inr (List.mem_map_of_mem _ hkv2))])
    · rw [if_neg h] at hkv
      rcases List.mem_cons.mp hkv with rfl | hkv2
      · exact Or.inr (by simp)
      · rcases ih kv hkv2 with h1 | h2
        · exact Or.inl h1
        · exact Or.inr (by simp [h2])

theorem foldl_updateAssocStr_names (tvs : List UVar) :
    ∀ (dict : List (UVar × PyStr)), (∀ kv ∈ dict, kv.1 ∈ tvs) →
    ∀ (acc : List (PyStr × PyStr)),
      (∀ kv ∈ acc, ∃ tv ∈ tvs, kv.1 = tv.name.data) →
    ∀ kv ∈ dict.foldl (fun acc2 kv2 => updateAssocStr kv2.1.name.data kv2.2 acc2) acc,
      ∃ tv ∈ tvs, kv.1 = tv.name.data := by
  intro dict
  induction dict with
  | nil => intro _ acc hacc kv hkv; exact hacc kv hkv
  | cons hd tl ih =>
    intro hdict acc hacc kv hkv
    refine ih (fun kv2 hkv2 => hdict kv2 (List.mem_cons_of_mem hd hkv2))
      (updateAssocStr hd.1.name.data hd.2 acc) ?_ kv hkv
    intro kv2 hkv2
    rcases updateAssocStr_keys _ _ _ _ hkv2 with h1 | h2
    · exact ⟨hd.1, hdict hd (List.mem_cons_self hd tl), h1⟩
    · rcases List.mem_map.mp h2 with ⟨kv3, hkv3, hkey⟩
      rcases hacc kv3 hkv3 with ⟨tv, htv, hname⟩
      exact ⟨tv, htv, by rw [← hkey, hname]⟩

theorem buildModel_names (tvs : List UVar) (values : PyStr) :
    ∀ kv ∈ buildModel tvs values, ∃ tv ∈ tvs, kv.1 = tv.name.data := by
  unfold buildModel
  exact foldl_updateAssocStr_names tvs _
    (foldl_recordLine_keys tvs _ [] (by simp)) [] (by simp)

theorem finishParse_spec (tvs : List UVar) (sv : PyStr × PyStr) :
    ((finishParse tvs sv).1 = "sat".data ∨ (finishParse tvs sv).1 = "unsat".data ∨
      (finishParse tvs sv).1 = "unknown".data) ∧
    ((finishParse tvs sv).1 ≠ "sat".data → (finishParse tvs sv).2 = []) ∧
    (∀ kv ∈ (finishParse tvs sv).2, ∃ tv ∈ tvs, kv.1 = tv.name.data) := by
  unfold finishParse
  by_cases hu : sv.1 = "unsat".data
  · rw [if_pos hu]
    exact ⟨Or.inr (Or.inl rfl), fun _ => rfl, by simp⟩
  · rw [if_neg hu]
    by_cases hs : sv.1 = "sat".data
    · rw [if_neg (by simp [hs])]
      exact ⟨Or.inl rfl, fun hne => absurd rfl hne, buildModel_names tvs sv.2⟩
    · rw [if_pos (by simp [hs])]
      exact ⟨Or.inr (Or.inr rfl), fun _ => rfl, by simp⟩

/-- C9, counterexample: with a solver output consisting of the single line
`unsupported`, `run_on_solver` reads `output.split('\n')[1]`, which raises
`IndexError` — the function does not always return a `(status, model)`
pair. -/
theorem C9_unsupported_single_line_counterexample :
    runOnSolverParse true [] "unsupported".data = .error "IndexError" := by
  rfl

/-- C9, amended: provided the output does not consist of a single
`unsupported` line (in which case reading the following line raises
`IndexError`), `run_on_solver` returns `(status, model)` with `status` one
of `sat`, `unsat`, `unknown`; the model is empty whenever the status is not
`sat` (in particular when the solver binary is unavailable); and every
binding of the returned model is keyed by the name of a declared template
variable — bindings for names outside the template table are silently
dropped. -/
theorem C9_run_on_solver_amended (avail : Bool) (tvs : List UVar) (output : PyStr)
    (h : (pySplit '\n' output).headD [] = "unsupported".data →
      1 < (pySplit '\n' output).length) :
    ∃ st m, runOnSolverParse avail tvs output = .ok (st, m) ∧
      (st = "sat".data ∨ st = "unsat".data ∨ st = "unknown".data) ∧
      (st ≠ "sat".data → m = []) ∧
      (∀ kv ∈ m, ∃ tv ∈ tvs, kv.1 = tv.name.data) := by
  unfold runOnSolverParse
  cases avail with
  | false =>
    exact ⟨"unknown".data, [], rfl, Or.inr (Or.inr rfl), fun _ => rfl, by simp⟩
  | true =>
    have hok : ∃ sv, parseStatusLine output = .ok sv := by
      unfold parseStatusLine
      by_cases hunsup : (pySplit '\n' output).headD [] = "unsupported".data
      · rcases hget : (pySplit '\n' output).get? 1 with _ | l2
        · exfalso
          have hlen := h hunsup
          rw [List.get?_eq_none] at hget
          omega
        · rw [if_pos hunsup, hget]
          exact ⟨_, rfl⟩
      · rw [if_neg hunsup]
        exact ⟨_, rfl⟩
    rcases hok with ⟨sv, hsv⟩
    rw [Bool.not_true]
    rw [if_neg (by simp)]
    rw [hsv]
    rcases finishParse_spec tvs sv with ⟨h1, h2, h3⟩
    exact ⟨(finishParse tvs sv).1, (finishParse tvs sv).2, rfl, h1, h2, h3⟩

/-- C9, witness for the amended theorem on a concrete `sat` output. -/
theorem C9_run_on_solver_amended_witness :
    ∃ st m, runOnSolverParse true [tvA] ("sat\n((a 1))".data) = .ok (st, m) ∧
      (st = "sat".data ∨ st = "unsat".data ∨ st = "unknown".data) ∧
      (st ≠ "sat".data → m = []) ∧
      (∀ kv ∈ m, ∃ tv ∈ [tvA], kv.1 = tv.name.data) :=
  C9_run_on_solver_amended true [tvA] ("sat\n((a 1))".data) (by decide)
/-! ## The Putinar strict-unsat generator (Putinar.py, C3) -/

/-- Little-endian decimal digits of `n` with fuel (structural, so the kernel
can evaluate it). -/
def natDigits : ℕ → ℕ → List Char
  | 0, _ => []
  | _ + 1, 0 => []
  | fuel + 1, n => Char.ofNat (48 + n % 10) :: natDigits fuel (n / 10)

/-- Decimal representation of a natural number. -/
def natToStr (n : ℕ) : String :=
  if n = 0 then "0" else ⟨(natDigits (n + 1) n).reverse⟩

/-- `Solver.get_constant_polynomial`: one zero-degree monomial with a
constant coefficient. -/
def getConstantPolynomial (vs : List UVar) (c : ℚ) : Polynomial :=
  Polynomial.init vs
    [Monomial.init vs (List.replicate vs.length 0) (Coefficient.init [Element.init c []])]

/-- `Solver.get_variable_polynomial`: mints a fresh unknown variable (the
mint counter is threaded explicitly) and wraps it as the coefficient of a
zero-degree monomial. -/
def getVariablePolynomial (vs : List UVar) (name kind : String) (n : ℕ) :
    Polynomial × ℕ :=
  (Polynomial.init vs
    [Monomial.init vs (List.replicate vs.length 0)
      (Coefficient.init [Element.init 1 [⟨kind, name, n⟩]])], n + 1)

/-- `Solver.get_degree_polynomial`: one monomial with the given exponent
vector and constant coefficient 1. -/
def getDegreePolynomial (vs : List UVar) (ds : List ℕ) : Polynomial :=
  Polynomial.init vs [Monomial.init vs ds (Coefficient.init [Element.init 1 []])]

/-- First-occurrence deduplication of degree keys (Python set/dict key
iteration order is modelled as first-occurrence order; the stated results
do not depend on it). -/
def dedupKeys (l : List (List ℕ)) : List (List ℕ) :=
  l.foldl (fun acc d => if d ∈ acc then acc else acc ++ [d]) []

/-- `Solver.find_equality_constraint`: one coefficient-equality
`coeffL[e] − coeffR[e] = 0` per exponent vector in the union of the two
supports. -/
def findEqualityConstraint (L R : Polynomial) : List CoefConstraint :=
  (dedupKeys (degreeKeys L.monomials ++ degreeKeys R.monomials)).map
    (fun d => CoefConstraint.mk
      ((L.getMonomialByDegree d).coef.sub (R.getMonomialByDegree d).coef) "=")

/-- Little-endian base-`b` digits of `mask`, one per variable
(`get_monoids`' digit extraction). -/
def maskDigits (b : ℕ) : ℕ → ℕ → List ℕ
  | 0, _ => []
  | k + 1, mask => (mask % b) :: maskDigits b k (mask / b)

/-- `Putinar.get_monoids`: all monomials over `vars` of total degree at most
`maxD`, enumerated by base-(maxD+1) masks. -/
def putinarGetMonoids (vars : List UVar) (maxD : ℕ) : List Polynomial :=
  (List.range ((maxD + 1) ^ vars.length)).filterMap (fun mask =>
    let ds := maskDigits (maxD + 1) vars.length mask
    if ds.sum > maxD then none
    else some (getDegreePolynomial vars ds))

/-- The fresh `eta{i+1}` coefficient polynomials of
`Putinar.get_general_template`, minted in order. -/
def mintEtasFrom (allVars : List UVar) : ℕ → ℕ → ℕ → List Polynomial × ℕ
  | _, 0, n => ([], n)
  | i, k + 1, n =>
    let pn := getVariablePolynomial allVars ("eta" ++ natToStr (i + 1))
      "generated_for_template_poly_strict" n
    let rest := mintEtasFrom allVars (i + 1) k pn.2
    (pn.1 :: rest.1, rest.2)

/-- `Putinar.get_general_template`: a fresh unknown per monoid, returning
`Σ etaᵢ · monoidᵢ` (numpy's object dot product sums the products left to
right; the grouping does not affect the canonical polynomial). -/
def getGeneralTemplate (allVars : List UVar) (monoids : List Polynomial) (n : ℕ) :
    Polynomial × ℕ :=
  let ek := mintEtasFrom allVars 0 monoids.length n
  match (ek.1.zip monoids).map (fun pm => pm.1.mulP pm.2) with
  | [] => (Polynomial.init allVars [], ek.2)
  | p :: rest => (rest.foldl Polynomial.addP p, ek.2)

/-- The fresh `w_{i+1}` program-level progVars of `handel_strict`, minted
in order. -/
def mintWs : ℕ → ℕ → ℕ → List UVar × ℕ
  | _, 0, n => ([], n)
  | i, k + 1, n =>
    let v : UVar := ⟨"generated_for_strict_unsat", "w_" ++ natToStr (i + 1), n⟩
    let rest := mintWs (i + 1) k (n + 1)
    (v :: rest.1, rest.2)

/-- The one-hot exponent vector `degrees[pos] = 1`. -/
def oneHot (len pos : ℕ) : List ℕ :=
  (List.range len).map (fun k => if k = pos then 1 else 0)

/-- The inner loop of `handel_strict`: `poly_sum = Σᵢ templateᵢ · (gᵢ − wᵢ²)`
over all lifted hypotheses, minting a fresh general template per
hypothesis. -/
def buildPolySum (progVars allVariable : List UVar) (allMonoids : List Polynomial) :
    ℕ → List PolyConstraint → Polynomial → ℕ → Polynomial × ℕ
  | _, [], acc, n => (acc, n)
  | i, g :: rest, acc, n =>
    let tmpl := getGeneralTemplate allVariable allMonoids n
    let wPoly := getDegreePolynomial allVariable
      (oneHot allVariable.length (progVars.length + i))
    let acc2 := acc.addP (tmpl.1.mulP (g.polynomial.subP (wPoly.mulP wPoly)))
    buildPolySum progVars allVariable allMonoids (i + 1) rest acc2 tmpl.2

/-- `poly_of_var_to_power`: the constant 1 multiplied `k` times by `w`. -/
def powerLoop (p w : Polynomial) : ℕ → Polynomial
  | 0 => p
  | k + 1 => powerLoop (p.mulP w) w k

/-- The outer loop of `handel_strict`: for each strict lifted hypothesis
`gⱼ`, one coefficient-equality system `wⱼ^{2k} = poly_sum`. -/
def handelStrictLoop (progVars allVariable : List UVar) (allMonoids : List Polynomial)
    (newCons : List PolyConstraint) (powerOfNewVar : ℕ) :
    ℕ → List PolyConstraint → ℕ → List (List CoefConstraint) × ℕ
  | _, [], n => ([], n)
  | j, c :: rest, n =>
    if c.isStrict then
      let psn := buildPolySum progVars allVariable allMonoids 0 newCons
        (Polynomial.init allVariable []) n
      let wPoly := getDegreePolynomial allVariable
        (oneHot allVariable.length (progVars.length + j))
      let powered := powerLoop (getConstantPolynomial allVariable 1) wPoly
        (2 * powerOfNewVar)
      let system := findEqualityConstraint powered psn.1
      let tail := handelStrictLoop progVars allVariable allMonoids newCons
        powerOfNewVar (j + 1) rest psn.2
      (system :: tail.1, tail.2)
    else
      handelStrictLoop progVars allVariable allMonoids newCons powerOfNewVar
        (j + 1) rest n

/-- `Putinar.handel_strict`: mint one `w` per hypothesis, lift the
hypotheses with the new progVars, enumerate the monoids once, and emit one
equality system per strict hypothesis (a list of constraint lists). -/
def handelStrict (progVars : List UVar) (LHS : List PolyConstraint)
    (maxD powerOfNewVar n : ℕ) : List (List CoefConstraint) × ℕ :=
  let ws := mintWs 0 LHS.length n
  let newCons := LHS.map (fun c => PolyConstraint.init (c.polynomial.addVariables ws.1) c.sign)
  let allVariable := progVars ++ ws.1
  let allMonoids := putinarGetMonoids allVariable maxD
  handelStrictLoop progVars allVariable allMonoids newCons powerOfNewVar 0 newCons ws.2

/-- A literal appended to `new_dnf` in `get_generated_constraints`: either a
single clause (a constraint list) or — when the configured theorem name is
not `'putinar'` although the resolved theorem is — the whole list of
systems appended as one literal. -/
inductive DnfEntry
  | flat (clause : List CoefConstraint)
  | nested (systems : List (List CoefConstraint))
deriving DecidableEq, Repr

/-- Whether an entry of `new_dnf` is the nested list-of-systems. -/
def DnfEntry.isNested : DnfEntry → Bool
  | .nested _ => true
  | .flat _ => false

/-- The number of equality systems carried by an entry of `new_dnf`. -/
def DnfEntry.systemCount : DnfEntry → ℕ
  | .nested ss => ss.length
  | .flat _ => 1

/-- The strict-unsat block of `get_generated_constraints` (lines 209–215),
for Horn pairs whose resolved theorem is Putinar (the claim's scope; `none`
means the resolved theorem is a different generator, not modelled here).
The degree knobs come from the auto selection when the configured name is
`'auto'`, otherwise from the configuration; the check guarding the
per-system placement compares the configured name `theorem_name` with
`'putinar'` — not the resolved theorem — so under `'auto'` the whole list
of systems is appended as one single literal of the pair's DNF. -/
def strictDnfEntries (theoremName : String) (progVars : List UVar)
    (lhs : List PolyConstraint) (rhs : PolyConstraint)
    (degreeOfStrictUnsat maxDOfStrict n : ℕ) : Option (List DnfEntry) :=
  let resolved : Option TheoremName :=
    if theoremName = "auto" then some (autoSelect lhs rhs).1
    else if theoremName = "farkas" then some TheoremName.farkas
    else if theoremName = "handelman" then some TheoremName.handelman
    else if theoremName = "putinar" then some TheoremName.putinar
    else none
  let knobs : ℕ × ℕ :=
    if theoremName = "auto" then ((autoSelect lhs rhs).2, (autoSelect lhs rhs).2)
    else (degreeOfStrictUnsat, maxDOfStrict)
  match resolved with
  | some TheoremName.putinar =>
    let systems := (handelStrict progVars lhs knobs.1 knobs.2 n).1
    some (if theoremName = "putinar" then systems.map DnfEntry.flat
          else [DnfEntry.nested systems])
  | _ => none
/-- C3, failing input: the polynomial `x²` over `[x]`. -/
def c3x2 : Polynomial := Polynomial.init [pvX] [Monomial.init [pvX] [2] oneCoef]

/-- C3, failing input: the polynomial `x` over `[x]`. -/
def c3x : Polynomial := Polynomial.init [pvX] [Monomial.init [pvX] [1] oneCoef]

/-- C3, failing input: the hypothesis list `x² > 0, x > 0, x ≥ 0` (two
strict hypotheses, one non-strict; nonlinear, so auto resolves to
Putinar with degree knob 2). -/
def c3lhs : List PolyConstraint :=
  [PolyConstraint.init c3x2 ">", PolyConstraint.init c3x ">",
   PolyConstraint.init c3x ">="]

/-- C3, failing input: the goal `x ≥ 0`. -/
def c3rhs : PolyConstraint := PolyConstraint.init c3x ">="

set_option maxRecDepth 10000 in
/-- C3: on the Horn pair `x² > 0 ∧ x > 0 ∧ x ≥ 0 ⊨ x ≥ 0` the auto
selection resolves to Putinar with degree knob 2 (the hypotheses are
nonlinear), and `handel_strict` produces one nonempty coefficient-equality
system per strict hypothesis — two systems for the three hypotheses.  But
the placement check in `get_generated_constraints` compares the configured
theorem name with `'putinar'`, not the resolved theorem: under the explicit
name `'putinar'` each of the two systems becomes its own literal of the
pair's DNF, while under `'auto'` the whole two-element list of systems is
appended as one single nested literal, so the systems are not placed as
separate disjuncts and the literal is not a clause of constraints at all. -/
theorem C3_strict_putinar_auto_bug :
    strictDnfEntries "auto" [pvX] c3lhs c3rhs 0 0 0 =
      some [DnfEntry.nested (handelStrict [pvX] c3lhs 2 2 0).1] ∧
    strictDnfEntries "putinar" [pvX] c3lhs c3rhs 2 2 0 =
      some ((handelStrict [pvX] c3lhs 2 2 0).1.map DnfEntry.flat) ∧
    (handelStrict [pvX] c3lhs 2 2 0).1.length = 2 ∧
    (handelStrict [pvX] c3lhs 2 2 0).1.all (fun s => !s.isEmpty) = true := by
  refine ⟨rfl, rfl, by decide, by decide⟩
end PolyHorn
